import Mathlib

/-!
Verification of the `gesquive/cli` console log formatter.

This file shallowly embeds the parts of the Go sources that the claims
concern: the pooled byte buffer's fixed-width integer formatter
(`buffer.go`), the canonical handler of `src/unnamed/part_001` (value
renderer, attribute walker, level presentation, `WithAttrs` / `WithGroup`
derivation and `Handle`), and a store-based model of Go slice `append`
semantics used by `Handler.clone` / `WithGroup`.

Modelling conventions:
- Machine integers are `Int` / `Nat`; Go `int` is 64-bit, so theorems about
  `WritePosIntWidth` carry the `i < 2^63` bound of the Go type.
- A Go `panic` is `Option.none`; fallible renderings return `Option String`.
- Timestamps and source locations are abstracted by their rendered text
  (no claim concerns time formatting or file-path splitting).
- Character printability (`unicode.IsPrint` / `strconv.IsPrint`) is modelled
  exactly on the ASCII range (printable iff `0x20 ≤ c ≤ 0x7E`); theorems that
  depend on printability restrict their strings to ASCII.
-/

namespace Cli

/-! ## `buffer.go`: `WritePosIntWidth`

Go source (`buffer.go`):
```
func (b *buffer) WritePosIntWidth(i, width int) {
    if i < 0 { panic("negative int") }
    var bb [20]byte
    bp := len(bb) - 1
    for i >= 10 || width > 1 {
        width--
        q := i / 10
        bb[bp] = byte('0' + i - q*10)
        bp--
        i = q
    }
    bb[bp] = byte('0' + i)
    b.Write(bb[bp:])
}
```
The 20-byte scratch array is a `List Char` of length 20 (Go zero-initializes
it to NUL bytes); an index outside `[0, 20)` at a write is the Go
index-out-of-range panic, i.e. `none`.  Since `bp` starts at 19 and only
decreases, the only possible violation is `bp < 0`, but the guard checks the
full bound as the Go runtime does. -/

/-- One step of the reverse-fill loop plus the final single-digit write of
`WritePosIntWidth`, over the scratch array `bb` and write index `bp`.
Returns the final array and final index, or `none` on an out-of-range
array write (Go panic). -/
def wpiwCore (i : Nat) (width : Int) (bb : List Char) (bp : Int) :
    Option (List Char × Int) :=
  if 10 ≤ i ∨ 1 < width then
    if bp < 0 ∨ 20 ≤ bp then none
    else wpiwCore (i / 10) (width - 1)
        (bb.set bp.toNat (Nat.digitChar (i % 10))) (bp - 1)
  else
    if bp < 0 ∨ 20 ≤ bp then none
    else some (bb.set bp.toNat (Nat.digitChar i), bp)
termination_by i + width.toNat
decreasing_by
  rename_i h _
  omega

/-- `buffer.WritePosIntWidth`: appends to `b`; `none` models a panic
(negative `i`, or the scratch-array index running out of range). -/
def WritePosIntWidth (b : String) (i width : Int) : Option String :=
  if i < 0 then none
  else
    (wpiwCore i.toNat width (List.replicate 20 (Char.ofNat 0)) 19).map
      (fun r => b ++ String.mk (r.1.drop r.2.toNat))

/-- Decimal digits of `n`, most significant first (spec side: "the decimal
digits of i"). -/
def decDigits (n : Nat) : List Char :=
  if n < 10 then [Nat.digitChar n]
  else decDigits (n / 10) ++ [Nat.digitChar (n % 10)]
termination_by n
decreasing_by exact Nat.div_lt_self (by omega) (by omega)

/-- Number of decimal digits of `n` (at least 1). -/
def numDigits (n : Nat) : Nat := (decDigits n).length

/-- The claim's expected output: the digits of `n` left-padded with `'0'`
to `max width (numDigits n)` characters (`width ≤ 0` adds no padding). -/
def padDigits (n : Nat) (width : Int) : List Char :=
  List.replicate (max width.toNat (numDigits n) - numDigits n) '0' ++ decDigits n

/-- Total number of characters `WritePosIntWidth` writes for `i`, `width`. -/
def totalChars (i : Nat) (width : Int) : Nat := max width.toNat (numDigits i)

/-! ## ANSI color constants (`part_001`, `cliColor`) — only those the handler
uses. -/

def cliReset : String := "\x1b[0m"
def cliFaint : String := "\x1b[2m"
def cliFgRed : String := "\x1b[31m"
def cliFgYellow : String := "\x1b[33m"
def cliFgBlue : String := "\x1b[34m"

/-! ## strconv / unicode helpers used by the renderer -/

/-- Printability as Go's `strconv.IsPrint` / `unicode.IsPrint` decide it,
modelled exactly on the ASCII range (`0x20 ≤ c ≤ 0x7E`).  Non-ASCII
printability follows Unicode tables in Go; theorems that rely on this
predicate restrict their strings to ASCII. -/
def goIsPrint (c : Char) : Bool := 32 ≤ c.toNat && c.toNat ≤ 126

/-- Two lowercase hex digits of a byte (Go strconv's `lowerhex` indexing). -/
def hex2 (n : Nat) : String :=
  String.mk [Nat.digitChar (n / 16 % 16), Nat.digitChar (n % 16)]

/-- Four lowercase hex digits (`\uNNNN` escapes). -/
def hex4 (n : Nat) : String :=
  String.mk [Nat.digitChar (n / 4096 % 16), Nat.digitChar (n / 256 % 16),
    Nat.digitChar (n / 16 % 16), Nat.digitChar (n % 16)]

/-- Eight lowercase hex digits (`\UNNNNNNNN` escapes). -/
def hex8 (n : Nat) : String := hex4 (n / 65536 % 65536) ++ hex4 (n % 65536)

/-- One rune's escaped form inside `strconv.Quote` (Go
`strconv.appendEscapedRune`): `"` and `\` get a backslash, printable runes
pass through, the named control escapes apply, other controls become `\xNN`,
the rest `\uNNNN` / `\UNNNNNNNN`. -/
def goQuoteChar (c : Char) : String :=
  if c = '"' ∨ c = '\\' then String.mk ['\\', c]
  else if goIsPrint c then String.mk [c]
  else if c = Char.ofNat 7 then "\\a"
  else if c = Char.ofNat 8 then "\\b"
  else if c = Char.ofNat 12 then "\\f"
  else if c = '\n' then "\\n"
  else if c = '\r' then "\\r"
  else if c = '\t' then "\\t"
  else if c = Char.ofNat 11 then "\\v"
  else if c.toNat < 32 ∨ c.toNat = 127 then "\\x" ++ hex2 c.toNat
  else if c.toNat < 65536 then "\\u" ++ hex4 c.toNat
  else "\\U" ++ hex8 c.toNat

/-- `appendQuote` / `strconv.Quote`: wrap in double quotes, escaping each
rune. -/
def goQuote (s : String) : String :=
  "\"" ++ String.join (s.data.map goQuoteChar) ++ "\""

/-- The per-rune test of `needsQuotes` (`part_001`): the explicit switch
cases (space, `"`, `=`, `\t`, `\n`, `\v`, `\f`, `\r`, NEL U+0085,
NBSP U+00A0) or a non-printable rune. -/
def needsQuotesChar (r : Char) : Bool :=
  r == ' ' || r == '"' || r == '=' || r == '\t' || r == '\n' ||
    r == Char.ofNat 11 || r == Char.ofNat 12 || r == '\r' ||
    r.toNat == 133 || r.toNat == 160 || !goIsPrint r

/-- `needsQuotes` (`part_001`): empty strings and strings holding a rune its
switch flags must be quoted. -/
def needsQuotes (s : String) : Bool :=
  s.length == 0 || s.data.any needsQuotesChar

/-- `appendAutoQuote`: quote only when `needsQuotes` demands it. -/
def appendAutoQuote (s : String) : String :=
  if needsQuotes s then goQuote s else s

/-- ASCII lower-casing of one rune (Go `strings.ToLower`, which is
Unicode-aware, restricted to the ASCII range the claims exercise). -/
def lowerChar (c : Char) : Char :=
  if 65 ≤ c.toNat ∧ c.toNat ≤ 90 then Char.ofNat (c.toNat + 32) else c

/-- `strings.ToLower` on the ASCII range. -/
def goToLower (s : String) : String := String.mk (s.data.map lowerChar)

/-- `strings.TrimRight(s, " ")`: strip trailing space characters. -/
def trimRight (s : String) : String :=
  String.mk (s.data.reverse.dropWhile (· == ' ')).reverse

/-! ## Level presentation -/

/-- `fmt.Sprintf("%s%+d", base, val)` when `val ≠ 0`, else `base`
(slog's `Level.String` helper). -/
def levelSuffix (base : String) (val : Int) : String :=
  if val = 0 then base
  else if 0 < val then base ++ "+" ++ toString val
  else base ++ toString val

/-- `slog.Level.String()`: Debug = -4, Info = 0, Warn = 4, Error = 8, with a
signed offset suffix between the named levels. -/
def levelString (l : Int) : String :=
  if l < 0 then levelSuffix "DEBUG" (l + 4)
  else if l < 4 then levelSuffix "INFO" l
  else if l < 8 then levelSuffix "WARN" (l - 4)
  else levelSuffix "ERROR" (l - 8)

/-! ## The attribute data model (`slog.Attr` / `slog.Value` as the handler
consumes them)

The `Value` kinds the claims exercise are modelled; `KindFloat64`,
`KindUint64` and `KindDuration` are omitted (no claim concerns them).
Timestamps (`timev`) and source locations (`srcv`) are abstracted by their
rendered text, since no claim concerns time formatting or path splitting.
`nilv` is `KindAny` holding Go `nil` (the zero `slog.Attr`'s value); `errv`
is `KindAny` holding an `error`, represented by its message; `lvl` is
`KindAny` holding a `slog.Level`. -/

mutual
inductive Value : Type where
  | str : String → Value
  | int : Int → Value
  | bool : Bool → Value
  | timev : String → Value
  | lvl : Int → Value
  | srcv : String → Value
  | errv : String → Value
  | bytes : List Nat → Value
  | nilv : Value
  | group : List Attr → Value

inductive Attr : Type where
  | mk : String → Value → Attr
end

def Attr.key : Attr → String
  | .mk k _ => k

def Attr.val : Attr → Value
  | .mk _ v => v

def Value.isGroup : Value → Bool
  | .group _ => true
  | _ => false

def Value.isNil : Value → Bool
  | .nilv => true
  | _ => false

/-! ## Handler state (`part_001`, `type Handler struct`)

The embedded `slog.TextHandler` field `h` and the `logger` field are not
modelled (the destination writer appears as an explicit argument of
`Handle`); `timeFormat` is absorbed by the timestamp abstraction. -/

structure Handler : Type where
  attrsPrefix : String
  groupPrefix : String
  groups : List String
  addSource : Bool
  level : Int
  replaceAttr : Option (List String → Attr → Attr)
  noColor : Bool

/-- `Handler.appendANSI`: emit the escape sequence unless color is off. -/
def appendANSI (h : Handler) (buf : String) (color : String) : String :=
  if h.noColor then buf else buf ++ color

/-- `Handler.appendLevel` (`part_001`): the four known levels render as fixed
5-character tokens (debug blue, info uncolored, warn yellow, error red);
anything else renders as `slog.Level.String()`. -/
def appendLevel (h : Handler) (buf : String) (level : Int) : String :=
  if level = -4 then appendANSI h (appendANSI h buf cliFgBlue ++ "DEBUG") cliReset
  else if level = 0 then buf ++ " INFO"
  else if level = 4 then appendANSI h (appendANSI h buf cliFgYellow ++ " WARN") cliReset
  else if level = 8 then appendANSI h (appendANSI h buf cliFgRed ++ "ERROR") cliReset
  else buf ++ levelString level

/-- `slog.Value.String()` as the `msg` branch of the walker uses it (never
reached with a group value: the walker dispatches groups first).  `bytes`
follows `fmt`'s rendering of `[]uint8`; `srcv` keeps its abstracted text. -/
def valueString : Value → String
  | .str s => s
  | .int i => toString i
  | .bool b => if b then "true" else "false"
  | .timev s => s
  | .lvl l => levelString l
  | .srcv s => s
  | .errv m => m
  | .bytes bs => "[" ++ String.intercalate " " (bs.map toString) ++ "]"
  | .nilv => "<nil>"
  | .group _ => ""

/-- Go `string(b)` for a byte slice, modelled bytewise (faithful for ASCII
bytes; multi-byte UTF-8 sequences are outside the model). -/
def byteString (bs : List Nat) : String :=
  String.mk (bs.map Char.ofNat)

/-- `Handler.appendKey`: dim, then the literal `""` for an empty key or the
auto-quoted group-prefixed key, then `=`, then reset. -/
def appendKey (h : Handler) (buf : String) (key groups : String) : String :=
  appendANSI h
    ((if key.length = 0 then appendANSI h buf cliFaint ++ "\"\""
      else appendANSI h buf cliFaint ++ appendAutoQuote (groups ++ key)) ++ "=")
    cliReset

/-- `Handler.appendError`: dim + red prefixed key, `=`, reset, quoted
message. -/
def appendError (h : Handler) (buf : String) (errMsg attrKey groupsPrefix : String) :
    String :=
  appendANSI h
    (appendANSI h (appendANSI h buf cliFaint) cliFgRed ++
      appendAutoQuote (groupsPrefix ++ attrKey) ++ "=") cliReset ++ goQuote errMsg

/-- `Handler.appendSource`: dim source text, reset.  The
`filepath.Join(filepath.Base(dir), file) + ":" + line` computation is
abstracted by the pre-rendered text the model's source values carry. -/
def appendSource (h : Handler) (buf : String) (src : String) : String :=
  appendANSI h (appendANSI h buf cliFaint ++ src) cliReset

/-- `Handler.appendValue` (`part_001`): strings, durations and times are
`strconv.Quote`d; integers and booleans are bare; a `slog.Level` value goes
through `appendLevel`; a `*slog.Source` through `appendSource`; a `[]byte` is
AUTO-quoted; an error (unreachable here, the walker special-cases it) falls
to the `fmt.Fprintf(buf, "\"%s\"", ...)` default; `nil` panics on the
`v.Any().(string)` type assertion; a group value matches no case and appends
nothing. -/
def appendValue (h : Handler) (buf : String) (v : Value) : Option String :=
  match v with
  | .str s => some (buf ++ goQuote s)
  | .int i => some (buf ++ toString i)
  | .bool b => some (buf ++ (if b then "true" else "false"))
  | .timev s => some (buf ++ goQuote s)
  | .lvl l => some (appendLevel h buf l)
  | .srcv s => some (appendSource h buf s)
  | .errv m => some (buf ++ "\"" ++ m ++ "\"")
  | .bytes bs => some (buf ++ appendAutoQuote (byteString bs))
  | .nilv => none
  | .group _ => some buf

/-! ## The attribute walker (`Handler.appendAttr`)

Go's recursion is unbounded when a `ReplaceAttr` function keeps producing
fresh group values, so the embedding runs on explicit fuel; `none` is a
panic or fuel exhaustion (with no rewrite function the walker is fuel-
insensitive beyond the nesting depth). -/

/-- Sequential walk of an attribute list, threading the buffer and stopping
at the first panic (the loop bodies of `WithAttrs`, `Handle` and the group
branch of `appendAttr`). -/
def walkList (f : String → Attr → Option String) : String → List Attr → Option String
  | buf, [] => some buf
  | buf, a :: rest =>
    match f buf a with
    | none => none
    | some b => walkList f b rest

/-- The non-group tail of `Handler.appendAttr`'s dispatch: the four built-in
keys (matched on the lower-cased key) render their special forms, error
values render via `appendError`, and everything else renders `key=value `
via `appendKey` / `appendValue`. -/
def appendAttrLeaf (h : Handler) (buf : String) (key1 : String) (v : Value)
    (groupsPrefix : String) : Option String :=
  if goToLower key1 = "time" then
    match v with
    | .timev s => some (buf ++ s ++ " ")
    | _ => none
  else if goToLower key1 = "level" then
    match v with
    | .lvl l => some (appendLevel h buf l ++ " ")
    | _ => none
  else if goToLower key1 = "source" then
    match v with
    | .srcv s => some (appendSource h buf s ++ " ")
    | _ => none
  else if goToLower key1 = "msg" then some (buf ++ valueString v ++ " ")
  else
    match v with
    | .errv m => some (appendError h buf m key1 groupsPrefix ++ " ")
    | _ => (appendValue h (appendKey h buf key1 groupsPrefix) v).map (· ++ " ")

/-- `Handler.appendAttr` (`part_001` lines 313–354): apply `ReplaceAttr` to
non-group attributes, resolve, drop the empty-key/nil-value sentinel, then
dispatch: groups recurse with an extended prefix (empty-key groups inline),
everything else through `appendAttrLeaf`. -/
def appendAttr (h : Handler) :
    Nat → String → Attr → String → List String → Option String
  | 0, _, _, _, _ => none
  | fuel + 1, buf, attr, groupsPrefix, groups =>
    let attr1 := match h.replaceAttr with
      | some rep => if attr.val.isGroup then attr else rep groups attr
      | none => attr
    -- Value.Resolve() is the identity: the model carries no LogValuer values
    if attr1.key = "" ∧ attr1.val.isNil then some buf
    else
      match attr1.val with
      | .group gattrs =>
        if attr1.key = "" then
          walkList (fun b a => appendAttr h fuel b a groupsPrefix groups) buf gattrs
        else
          walkList
            (fun b a => appendAttr h fuel b a (groupsPrefix ++ attr1.key ++ ".")
              (groups ++ [attr1.key])) buf gattrs
      | v => appendAttrLeaf h buf attr1.key v groupsPrefix
termination_by structural fuel => fuel

/-- The walk the `WithAttrs` / `Handle` loops perform over a whole attribute
list (each element through `appendAttr` at the same depth budget). -/
def appendAttrList (h : Handler) (fuel : Nat) (buf : String) (attrs : List Attr)
    (groupsPrefix : String) (groups : List String) : Option String :=
  walkList (fun b a => appendAttr h fuel b a groupsPrefix groups) buf attrs

/-- `Handler.WithAttrs` (`part_001` lines 265–280): the empty list returns
the same handler; otherwise the attributes are pre-rendered with the current
prefix/groups and concatenated onto `attrsPrefix`. -/
def WithAttrs (h : Handler) (fuel : Nat) (attrs : List Attr) : Option Handler :=
  if attrs.isEmpty then some h
  else
    match appendAttrList h fuel "" attrs h.groupPrefix h.groups with
    | none => none
    | some buf => some { h with attrsPrefix := h.attrsPrefix ++ buf }

/-- `Handler.WithGroup` (`part_001` lines 282–290), at the level of observed
values (the slice-aliasing of `clone` is modelled separately below). -/
def WithGroup (h : Handler) (name : String) : Handler :=
  if name = "" then h
  else { h with groupPrefix := h.groupPrefix ++ name ++ ".",
                groups := h.groups ++ [name] }

/-- One log record as `Handle` consumes it: the timestamp is abstracted by
its formatted text (`none` = zero time), the source by its rendered
`dir/file:line` text (`none` = no caller frame). -/
structure Record : Type where
  time : Option String
  level : Int
  msg : String
  source : Option String
  attrs : List Attr

/-- The buffer-building section of `Handler.Handle` (`part_001` lines
192–258): time (skipped when zero), level, source (when enabled and
present), message — each direct when no rewrite function is configured,
through `appendAttr` otherwise — then the pre-rendered `attrsPrefix`, then
the record's own attributes. -/
def renderRecord (h : Handler) (fuel : Nat) (r : Record) : Option String := do
  let buf : String := ""
  let buf ← match r.time with
    | none => some buf
    | some t =>
      match h.replaceAttr with
      | none => some (buf ++ t ++ " ")
      | some _ => appendAttr h fuel buf (Attr.mk "time" (Value.timev t)) h.groupPrefix []
  let buf ← match h.replaceAttr with
    | none => some (appendLevel h buf r.level ++ " ")
    | some _ => appendAttr h fuel buf (Attr.mk "level" (Value.lvl r.level)) h.groupPrefix []
  let buf ← if h.addSource then
      match r.source with
      | some s =>
        match h.replaceAttr with
        | none => some (appendSource h buf s ++ " ")
        | some _ => appendAttr h fuel buf (Attr.mk "source" (Value.srcv s)) h.groupPrefix []
      | none => some buf
    else some buf
  let buf ← match h.replaceAttr with
    | none => some (buf ++ r.msg ++ " ")
    | some _ => appendAttr h fuel buf (Attr.mk "msg" (Value.str r.msg)) h.groupPrefix []
  let buf := if 0 < h.attrsPrefix.length then buf ++ h.attrsPrefix else buf
  let buf ← if 0 < r.attrs.length then
      appendAttrList h fuel buf r.attrs h.groupPrefix h.groups
    else some buf
  some buf

/-- `Handler.Handle` (`part_001` lines 191–263): render the record, then
write the trimmed line plus `"\n"` through the logger.  `h.logger.Println`
DISCARDS the destination writer's error and `Handle` ends in `return nil`,
so the returned error component is `none` whatever `write` reports.  The
result is `some (written line, returned error)`; `none` is a rendering
panic. -/
def Handle (h : Handler) (fuel : Nat) (r : Record)
    (write : String → Except String Unit) : Option (String × Option String) :=
  match renderRecord h fuel r with
  | none => none
  | some buf =>
    let line := trimRight buf ++ "\n"
    let _ := write line
    some (line, none)

/-! ## Go slice aliasing (`Handler.clone` / `WithGroup` on `groups`)

`clone` copies the `groups` slice HEADER (`groups: h.groups`) without copying
the backing array, and `WithGroup` does `h2.groups = append(h2.groups,
name)`; Go's `append` writes in place when the backing array has spare
capacity.  A `GoSlice` is an (array id, length) pair into a store of backing
arrays; `goAppend` either writes in place at index `len` (when `len < cap`)
or allocates a fresh array of capacity `max 1 (2·len)` — Go growslice's
doubling for these small `[]string`s. -/

structure GoSlice : Type where
  arr : Nat
  len : Nat

structure GoStore : Type where
  arrays : List (List String)

/-- The capacity of a slice: its backing array's full length. -/
def GoStore.capOf (σ : GoStore) (s : GoSlice) : Nat :=
  (σ.arrays.getD s.arr []).length

/-- The observable contents of a slice: the first `len` backing cells. -/
def GoStore.dataOf (σ : GoStore) (s : GoSlice) : List String :=
  (σ.arrays.getD s.arr []).take s.len

/-- Go `append(s, x)` for a one-element append. -/
def goAppend (σ : GoStore) (s : GoSlice) (x : String) : GoStore × GoSlice :=
  if s.len < σ.capOf s then
    (⟨σ.arrays.set s.arr ((σ.arrays.getD s.arr []).set s.len x)⟩, ⟨s.arr, s.len + 1⟩)
  else
    (⟨σ.arrays ++ [σ.dataOf s ++ [x] ++
        List.replicate (max 1 (2 * s.len) - (s.len + 1)) ""]⟩,
     ⟨σ.arrays.length, s.len + 1⟩)

/-- Handler state for the aliasing model: just the accreted fields `clone`
copies (the immutable configuration is irrelevant here). -/
structure HandlerS : Type where
  attrsPrefix : String
  groupPrefix : String
  groups : GoSlice

/-- `Handler.clone` (`part_001` lines 163–175): field-by-field copy; the
`groups` slice header is copied, its backing array aliased. -/
def cloneS (h : HandlerS) : HandlerS :=
  { attrsPrefix := h.attrsPrefix, groupPrefix := h.groupPrefix, groups := h.groups }

/-- `Handler.WithGroup` over the store: clone, extend `groupPrefix`, append
to the (aliased) `groups` slice. -/
def WithGroupS (σ : GoStore) (h : HandlerS) (name : String) : GoStore × HandlerS :=
  if name = "" then (σ, h)
  else
    let h2 := cloneS h
    let p := goAppend σ h2.groups name
    (p.1, { h2 with groupPrefix := h2.groupPrefix ++ name ++ ".", groups := p.2 })

/-- A fresh handler's `groups` is the nil slice (no backing array). -/
def newHandlerS : HandlerS :=
  { attrsPrefix := "", groupPrefix := "", groups := ⟨0, 0⟩ }

/-- The empty store backing `newHandlerS`. -/
def emptyStore : GoStore := ⟨[]⟩

/-! ## Spec-side definitions (worded from the claims, for comparison with
the source embedding) -/

/-- The claim's bad-key test: whitespace, `"`, `=`, or a non-printable
character (ASCII whitespace spelled out). -/
def badKeyChar (c : Char) : Bool :=
  c == ' ' || c == '\t' || c == '\n' || c == Char.ofNat 11 ||
    c == Char.ofNat 12 || c == '\r' || c == '"' || c == '=' || !goIsPrint c

/-- The claim's per-byte quoting trigger for byte sequences: whitespace,
`"`, `=`, or a non-printable ASCII byte. -/
def byteBad (b : Nat) : Bool :=
  b == 32 || b == 9 || b == 10 || b == 11 || b == 12 || b == 13 ||
    b == 34 || b == 61 || !(32 ≤ b && b ≤ 126)

/-- The escaped form of one ASCII byte inside a quoted byte sequence:
printable bytes pass through (`"` and `\` with a backslash), the named
control escapes apply, anything else becomes `\xNN`. -/
def escByte (b : Nat) : String :=
  if b = 34 then "\\\""
  else if b = 92 then "\\\\"
  else if 32 ≤ b ∧ b ≤ 126 then String.mk [Char.ofNat b]
  else if b = 7 then "\\a"
  else if b = 8 then "\\b"
  else if b = 12 then "\\f"
  else if b = 10 then "\\n"
  else if b = 13 then "\\r"
  else if b = 9 then "\\t"
  else if b = 11 then "\\v"
  else "\\x" ++ hex2 b

/-- A chain of singleton groups around a leaf attribute:
`nestGroups [g, h] a = Group("g", Group("h", a))`. -/
def nestGroups (ps : List String) (a : Attr) : Attr :=
  ps.foldr (fun p acc => Attr.mk p (Value.group [acc])) a

/-- The dot-joined prefix a chain of group keys contributes:
`joinDots [g, h] = "g.h."`. -/
def joinDots (ps : List String) : String :=
  ps.foldr (fun p acc => p ++ "." ++ acc) ""

/-- The four built-in keys the walker special-cases. -/
def builtinKeys : List String := ["time", "level", "source", "msg"]

/-! ## Concrete fixtures used by witnesses and counterexamples -/

/-- A color-disabled handler with no accreted state and no rewrite
function. -/
def testHandler : Handler :=
  { attrsPrefix := "", groupPrefix := "", groups := [], addSource := false,
    level := 0, replaceAttr := none, noColor := true }

/-- A minimal info-level record. -/
def testRecord : Record :=
  { time := none, level := 0, msg := "hello", source := none, attrs := [] }

/-- A handler whose rewrite function deletes every attribute by returning
the zero attribute. -/
def zeroRepHandler : Handler :=
  { testHandler with replaceAttr := some (fun _ _ => Attr.mk "" Value.nilv) }

/-- Store and handler after `WithGroup` chains "g1", "g2", "g3" from a fresh
handler: the third append grows the backing array to capacity 4, leaving a
spare cell. -/
def chain3 : GoStore × HandlerS :=
  let p1 := WithGroupS emptyStore newHandlerS "g1"
  let p2 := WithGroupS p1.1 p1.2 "g2"
  WithGroupS p2.1 p2.2 "g3"

/-- First sibling derived from `chain3`'s handler: appends "x" in place. -/
def sibX : GoStore × HandlerS := WithGroupS chain3.1 chain3.2 "x"

/-- Second sibling derived from the SAME parent, after `sibX`: appends "y"
into the shared spare cell. -/
def sibY : GoStore × HandlerS := WithGroupS sibX.1 chain3.2 "y"

theorem numDigits_pos (n : Nat) : 1 ≤ numDigits n := by
  unfold numDigits decDigits
  split
  · simp
  · simp

theorem decDigits_lt (n : Nat) (h : n < 10) : decDigits n = [Nat.digitChar n] := by
  unfold decDigits
  simp [h]

theorem decDigits_ge (n : Nat) (h : 10 ≤ n) :
    decDigits n = decDigits (n / 10) ++ [Nat.digitChar (n % 10)] := by
  rw [decDigits]
  simp [Nat.not_lt.mpr h]

theorem numDigits_lt (n : Nat) (h : n < 10) : numDigits n = 1 := by
  simp [numDigits, decDigits_lt n h]

theorem numDigits_ge (n : Nat) (h : 10 ≤ n) :
    numDigits n = numDigits (n / 10) + 1 := by
  simp [numDigits, decDigits_ge n h]

theorem numDigits_le_of_lt_pow (k : Nat) (hk : 1 ≤ k) :
    ∀ n, n < 10 ^ k → numDigits n ≤ k := by
  induction k with
  | zero => omega
  | succ m ih =>
    intro n hn
    by_cases h10 : n < 10
    · rw [numDigits_lt n h10]; omega
    · have hm : 1 ≤ m := by
        rcases Nat.eq_zero_or_pos m with h | h
        · subst h; simp at hn; omega
        · exact h
      have hdiv : n / 10 < 10 ^ m := by
        rw [Nat.div_lt_iff_lt_mul (by norm_num)]
        calc n < 10 ^ (m + 1) := hn
          _ = 10 ^ m * 10 := by ring
      have := ih hm (n / 10) hdiv
      rw [numDigits_ge n (Nat.not_lt.mp h10)]
      omega

/-- The inductive step of the padding law: one loop iteration peels off the
low digit (or one padding zero) of the expected output. -/
theorem padDigits_step (i : Nat) (width : Int) (h : 10 ≤ i ∨ 1 < width) :
    padDigits i width = padDigits (i / 10) (width - 1) ++ [Nat.digitChar (i % 10)] := by
  unfold padDigits
  rcases Nat.lt_or_ge i 10 with hi | hi
  · -- i < 10, so the loop runs only because width > 1: the step emits a '0'
    have hw : 1 < width := by omega
    have hd0 : i / 10 = 0 := Nat.div_eq_of_lt hi
    have hm : i % 10 = i := Nat.mod_eq_of_lt hi
    rw [hd0, hm, numDigits_lt i hi, numDigits_lt 0 (by norm_num),
      decDigits_lt i hi, decDigits_lt 0 (by norm_num)]
    have h1 : max width.toNat 1 - 1 = width.toNat - 1 := by omega
    have h2 : max (width - 1).toNat 1 - 1 = width.toNat - 2 := by omega
    rw [h1, h2]
    have : Nat.digitChar 0 = '0' := by rfl
    rw [this]
    have hrep : List.replicate (width.toNat - 2) '0' ++ ['0'] =
        List.replicate (width.toNat - 1) '0' := by
      have : width.toNat - 1 = (width.toNat - 2) + 1 := by omega
      rw [this, List.replicate_succ']
    rw [hrep]
  · -- i ≥ 10: the step emits the low digit of i
    rw [decDigits_ge i hi, numDigits_ge i hi]
    have hpad : max width.toNat (numDigits (i / 10) + 1) - (numDigits (i / 10) + 1) =
        max (width - 1).toNat (numDigits (i / 10)) - numDigits (i / 10) := by
      have := numDigits_pos (i / 10)
      omega
    rw [hpad, List.append_assoc]

theorem totalChars_step (i : Nat) (width : Int) (h : 10 ≤ i ∨ 1 < width) :
    totalChars i width = totalChars (i / 10) (width - 1) + 1 := by
  unfold totalChars
  rcases Nat.lt_or_ge i 10 with hi | hi
  · have hd0 : i / 10 = 0 := Nat.div_eq_of_lt hi
    rw [hd0, numDigits_lt i hi, numDigits_lt 0 (by norm_num)]
    omega
  · rw [numDigits_ge i hi]
    have := numDigits_pos (i / 10)
    omega

theorem totalChars_base (i : Nat) (width : Int) (hi : i < 10) (hw : width ≤ 1) :
    totalChars i width = 1 := by
  unfold totalChars
  rw [numDigits_lt i hi]
  omega

theorem drop_set_self {α : Type} (l : List α) (j : Nat) (c : α) (h : j < l.length) :
    (l.set j c).drop j = c :: l.drop (j + 1) := by
  rw [List.drop_eq_getElem_cons (by simpa using h), List.getElem_set_self,
    List.drop_set_of_lt c l (by omega : j < j + 1)]

/-- Main loop invariant: when the characters to be written fit between index 0
and `bp`, the loop succeeds, lands at `bp + 1 - totalChars`, and the array
suffix from there is exactly the zero-padded digit string followed by whatever
stood beyond `bp` before. -/
theorem wpiwCore_spec :
    ∀ (k i : Nat) (width : Int) (bb : List Char) (bp : Int),
      i + width.toNat ≤ k →
      bb.length = 20 →
      0 ≤ bp → bp ≤ 19 →
      (totalChars i width : Int) ≤ bp + 1 →
      ∃ bbf, wpiwCore i width bb bp = some (bbf, bp + 1 - totalChars i width) ∧
        bbf.length = 20 ∧
        bbf.drop (bp + 1 - totalChars i width).toNat =
          padDigits i width ++ bb.drop (bp.toNat + 1) := by
  intro k
  induction k with
  | zero =>
    intro i width bb bp hk hlen hbp0 hbp19 hfit
    have hi : i = 0 := by omega
    have hw : width.toNat = 0 := by omega
    subst hi
    have hwle : width ≤ 1 := by omega
    have hT : totalChars 0 width = 1 := totalChars_base 0 width (by norm_num) hwle
    rw [wpiwCore]
    have hguard : ¬(10 ≤ 0 ∨ 1 < width) := by omega
    rw [if_neg hguard, if_neg (by omega)]
    refine ⟨bb.set bp.toNat (Nat.digitChar 0), ?_, ?_, ?_⟩
    · rw [hT]
      have harith : bp + 1 - ((1 : Nat) : Int) = bp := by omega
      rw [harith]
    · simpa using hlen
    · rw [hT]
      have hbpn : ((bp + 1 - (1 : Nat) : Int)).toNat = bp.toNat := by omega
      rw [hbpn, drop_set_self bb bp.toNat _ (by omega)]
      have : padDigits 0 width = [Nat.digitChar 0] := by
        unfold padDigits
        rw [numDigits_lt 0 (by norm_num), decDigits_lt 0 (by norm_num)]
        have : max width.toNat 1 - 1 = 0 := by omega
        rw [this]
        simp
      rw [this]
      simp
  | succ m ih =>
    intro i width bb bp hk hlen hbp0 hbp19 hfit
    by_cases hguard : 10 ≤ i ∨ 1 < width
    · -- loop iteration
      have hT := totalChars_step i width hguard
      have hTpos : 1 ≤ totalChars (i / 10) (width - 1) := by
        unfold totalChars
        have := numDigits_pos (i / 10)
        omega
      have hbp1 : 1 ≤ bp := by omega
      rw [wpiwCore, if_pos hguard, if_neg (by omega)]
      have hmeas : i / 10 + (width - 1).toNat ≤ m := by
        rcases hguard with h | h
        · have : i / 10 < i := Nat.div_lt_self (by omega) (by norm_num)
          omega
        · have : i / 10 ≤ i := Nat.div_le_self i 10
          omega
      obtain ⟨bbf, heq, hflen, hfdrop⟩ :=
        ih (i / 10) (width - 1) (bb.set bp.toNat (Nat.digitChar (i % 10)))
          (bp - 1) hmeas (by simpa using hlen) (by omega) (by omega) (by omega)
      refine ⟨bbf, ?_, hflen, ?_⟩
      · rw [heq, hT]
        congr 1
        congr 1
        omega
      · have hidx : (bp - 1 + 1 - (totalChars (i / 10) (width - 1) : Int)) =
            bp + 1 - (totalChars i width : Int) := by omega
        rw [hidx] at hfdrop
        rw [hfdrop]
        have hbpn : (bp - 1).toNat + 1 = bp.toNat := by omega
        rw [hbpn, drop_set_self bb bp.toNat _ (by omega)]
        rw [padDigits_step i width hguard]
        simp
    · -- loop exit: single final digit
      have hi : i < 10 := by omega
      have hw : width ≤ 1 := by omega
      have hT : totalChars i width = 1 := totalChars_base i width hi hw
      rw [wpiwCore, if_neg hguard, if_neg (by omega)]
      refine ⟨bb.set bp.toNat (Nat.digitChar i), ?_, ?_, ?_⟩
      · rw [hT]
        have harith : bp + 1 - ((1 : Nat) : Int) = bp := by omega
        rw [harith]
      · simpa using hlen
      · rw [hT]
        have hbpn : ((bp + 1 - (1 : Nat) : Int)).toNat = bp.toNat := by omega
        rw [hbpn, drop_set_self bb bp.toNat _ (by omega)]
        have : padDigits i width = [Nat.digitChar i] := by
          unfold padDigits
          rw [numDigits_lt i hi, decDigits_lt i hi]
          have : max width.toNat 1 - 1 = 0 := by omega
          rw [this]
          simp
        rw [this]
        simp

/-- When the characters to be written do not fit below `bp`, the reverse fill
drives the index out of range and the call panics. -/
theorem wpiwCore_overflow :
    ∀ (k i : Nat) (width : Int) (bb : List Char) (bp : Int),
      i + width.toNat ≤ k →
      bp ≤ 19 →
      (bp < 0 ∨ bp + 1 < (totalChars i width : Int)) →
      wpiwCore i width bb bp = none := by
  intro k
  induction k with
  | zero =>
    intro i width bb bp hk hbp19 hbad
    have hi : i = 0 := by omega
    have hw : width.toNat = 0 := by omega
    subst hi
    have hT : totalChars 0 width = 1 := totalChars_base 0 width (by norm_num) (by omega)
    rw [wpiwCore]
    have hguard : ¬(10 ≤ 0 ∨ 1 < width) := by omega
    rw [if_neg hguard, if_pos (by rw [hT] at hbad; omega)]
  | succ m ih =>
    intro i width bb bp hk hbp19 hbad
    by_cases hguard : 10 ≤ i ∨ 1 < width
    · rw [wpiwCore, if_pos hguard]
      by_cases hpanic : bp < 0 ∨ 20 ≤ bp
      · rw [if_pos hpanic]
      · rw [if_neg hpanic]
        have hT := totalChars_step i width hguard
        have hmeas : i / 10 + (width - 1).toNat ≤ m := by
          rcases hguard with h | h
          · have : i / 10 < i := Nat.div_lt_self (by omega) (by norm_num)
            omega
          · have : i / 10 ≤ i := Nat.div_le_self i 10
            omega
        exact ih (i / 10) (width - 1) _ (bp - 1) hmeas (by omega) (by omega)
    · have hT : totalChars i width = 1 :=
        totalChars_base i width (by omega) (by omega)
      rw [hT] at hbad
      rw [wpiwCore, if_neg hguard, if_pos (by omega)]

/-- Shared: `WritePosIntWidth` succeeds and appends the left-zero-padded
digits when `i` is a non-negative Go int and `0 ≤ width ≤ 20`. -/
theorem wpiw_padded (b : String) (i width : Int)
    (h0 : 0 ≤ i) (h63 : i < 2 ^ 63) (hw0 : 0 ≤ width) (hw20 : width ≤ 20) :
    WritePosIntWidth b i width = some (b ++ String.mk (padDigits i.toNat width)) := by
  have hp2 : (2 : Int) ^ 63 = 9223372036854775808 := by norm_num
  have hp10 : (10 : Nat) ^ 19 = 10000000000000000000 := by norm_num
  have hlt : i.toNat < 10 ^ 19 := by omega
  have hnd : numDigits i.toNat ≤ 19 := numDigits_le_of_lt_pow 19 (by norm_num) i.toNat hlt
  have hT : totalChars i.toNat width ≤ 20 := by
    unfold totalChars
    omega
  obtain ⟨bbf, heq, hflen, hfdrop⟩ :=
    wpiwCore_spec (i.toNat + width.toNat) i.toNat width
      (List.replicate 20 (Char.ofNat 0)) 19 (by omega) (by simp) (by norm_num)
      (by norm_num) (by omega)
  unfold WritePosIntWidth
  rw [if_neg (by omega), heq, Option.map_some']
  have hdrop20 : (List.replicate 20 (Char.ofNat 0)).drop ((19 : Int).toNat + 1) = [] := by
    apply List.drop_eq_nil_of_le
    simp
  rw [hdrop20, List.append_nil] at hfdrop
  simp only [hfdrop]

/-- Shared: a padding width over 20 always drives the scratch index out of
range, so the call panics for every non-negative `i`. -/
theorem wpiw_wide_panics (b : String) (i width : Int)
    (h0 : 0 ≤ i) (hw : 20 < width) :
    WritePosIntWidth b i width = none := by
  have hover : wpiwCore i.toNat width (List.replicate 20 (Char.ofNat 0)) 19 = none := by
    apply wpiwCore_overflow (i.toNat + width.toNat) i.toNat width _ 19 (by omega)
      (by norm_num)
    right
    unfold totalChars
    have := numDigits_pos i.toNat
    omega
  unfold WritePosIntWidth
  rw [if_neg (by omega), hover]
  rfl

/-! ## Generic walker lemmas -/

theorem walkList_congr (f g : String → Attr → Option String)
    (hfg : ∀ b a, f b a = g b a) :
    ∀ (buf : String) (attrs : List Attr), walkList f buf attrs = walkList g buf attrs := by
  intro buf attrs
  induction attrs generalizing buf with
  | nil => rfl
  | cons a rest ih =>
    unfold walkList
    rw [hfg]
    cases g buf a with
    | none => rfl
    | some b => exact ih b

theorem walkList_append (f : String → Attr → Option String)
    (buf : String) (xs ys : List Attr) :
    walkList f buf (xs ++ ys) =
      match walkList f buf xs with
      | none => none
      | some b => walkList f b ys := by
  induction xs generalizing buf with
  | nil => rfl
  | cons a rest ih =>
    simp only [List.cons_append, walkList]
    cases f buf a with
    | none => rfl
    | some b => simpa using ih b

/-! ## Buffer-extension: every renderer only appends to its buffer -/

theorem appendANSI_shift (h : Handler) (x b c : String) :
    appendANSI h (x ++ b) c = x ++ appendANSI h b c := by
  unfold appendANSI
  split <;> simp [String.append_assoc]

theorem appendLevel_shift (h : Handler) (x b : String) (l : Int) :
    appendLevel h (x ++ b) l = x ++ appendLevel h b l := by
  unfold appendLevel appendANSI
  split_ifs <;> simp [String.append_assoc]

theorem appendSource_shift (h : Handler) (x b s : String) :
    appendSource h (x ++ b) s = x ++ appendSource h b s := by
  unfold appendSource appendANSI
  split_ifs <;> simp [String.append_assoc]

theorem appendKey_shift (h : Handler) (x b k g : String) :
    appendKey h (x ++ b) k g = x ++ appendKey h b k g := by
  unfold appendKey appendANSI
  split_ifs <;> simp [String.append_assoc]

theorem appendError_shift (h : Handler) (x b m k g : String) :
    appendError h (x ++ b) m k g = x ++ appendError h b m k g := by
  unfold appendError appendANSI
  split_ifs <;> simp [String.append_assoc]

theorem appendValue_shift (h : Handler) (x b : String) (v : Value) :
    appendValue h (x ++ b) v = (appendValue h b v).map (x ++ ·) := by
  cases v <;>
    simp [appendValue, appendLevel_shift, appendSource_shift, String.append_assoc]

theorem appendAttrLeaf_shift (h : Handler) (x b k : String) (v : Value) (g : String) :
    appendAttrLeaf h (x ++ b) k v g = (appendAttrLeaf h b k v g).map (x ++ ·) := by
  unfold appendAttrLeaf
  cases v <;> split_ifs <;>
    simp [appendValue_shift, appendKey_shift, appendLevel_shift,
      appendSource_shift, appendError_shift, Function.comp_def, String.append_assoc]

theorem walkList_shift (f : String → Attr → Option String)
    (hf : ∀ x b a, f (x ++ b) a = (f b a).map (x ++ ·)) :
    ∀ (x b : String) (attrs : List Attr),
      walkList f (x ++ b) attrs = (walkList f b attrs).map (x ++ ·) := by
  intro x b attrs
  induction attrs generalizing b with
  | nil => simp [walkList]
  | cons a rest ih =>
    unfold walkList
    rw [hf x b a]
    cases f b a with
    | none => rfl
    | some y =>
      simpa using ih y

theorem appendAttr_shift (h : Handler) :
    ∀ (fuel : Nat) (x b : String) (a : Attr) (gp : String) (gs : List String),
      appendAttr h fuel (x ++ b) a gp gs = (appendAttr h fuel b a gp gs).map (x ++ ·) := by
  intro fuel
  induction fuel with
  | zero => intros; rfl
  | succ n ih =>
    intro x b a gp gs
    unfold appendAttr
    generalize (match h.replaceAttr with
      | some rep => if a.val.isGroup then a else rep gs a
      | none => a) = a1
    obtain ⟨k1, v1⟩ := a1
    simp only [Attr.key, Attr.val]
    by_cases hdrop : k1 = "" ∧ v1.isNil
    · rw [if_pos hdrop, if_pos hdrop]
      simp
    · rw [if_neg hdrop, if_neg hdrop]
      cases v1 with
      | group gattrs =>
        split
        · rename_i a2 heq
          injection heq with heq2
          subst heq2
          split
          · exact walkList_shift (fun b2 a3 => appendAttr h n b2 a3 gp gs)
              (fun x2 b2 a3 => ih x2 b2 a3 gp gs) x b gattrs
          · exact walkList_shift
              (fun b2 a3 => appendAttr h n b2 a3 (gp ++ k1 ++ ".") (gs ++ [k1]))
              (fun x2 b2 a3 => ih x2 b2 a3 (gp ++ k1 ++ ".") (gs ++ [k1])) x b gattrs
        · rename_i v2 hcon
          exact absurd rfl (hcon gattrs)
      | _ => exact appendAttrLeaf_shift h x b k1 _ gp

/-! ## Configuration congruence: rendering reads only `replaceAttr` and
`noColor` from the handler, so handlers differing only in accreted state
render identically. -/

theorem appendANSI_config (h1 h2 : Handler) (hnc : h1.noColor = h2.noColor)
    (b c : String) : appendANSI h1 b c = appendANSI h2 b c := by
  unfold appendANSI
  rw [hnc]

theorem appendLevel_config (h1 h2 : Handler) (hnc : h1.noColor = h2.noColor)
    (b : String) (l : Int) : appendLevel h1 b l = appendLevel h2 b l := by
  unfold appendLevel appendANSI
  rw [hnc]

theorem appendSource_config (h1 h2 : Handler) (hnc : h1.noColor = h2.noColor)
    (b s : String) : appendSource h1 b s = appendSource h2 b s := by
  unfold appendSource appendANSI
  rw [hnc]

theorem appendKey_config (h1 h2 : Handler) (hnc : h1.noColor = h2.noColor)
    (b k g : String) : appendKey h1 b k g = appendKey h2 b k g := by
  unfold appendKey appendANSI
  rw [hnc]

theorem appendError_config (h1 h2 : Handler) (hnc : h1.noColor = h2.noColor)
    (b m k g : String) : appendError h1 b m k g = appendError h2 b m k g := by
  unfold appendError appendANSI
  rw [hnc]

theorem appendValue_config (h1 h2 : Handler) (hnc : h1.noColor = h2.noColor)
    (b : String) (v : Value) : appendValue h1 b v = appendValue h2 b v := by
  cases v <;>
    simp [appendValue, appendLevel_config h1 h2 hnc, appendSource_config h1 h2 hnc]

theorem appendAttrLeaf_config (h1 h2 : Handler) (hnc : h1.noColor = h2.noColor)
    (b k : String) (v : Value) (g : String) :
    appendAttrLeaf h1 b k v g = appendAttrLeaf h2 b k v g := by
  unfold appendAttrLeaf
  cases v <;> split_ifs <;>
    simp [appendValue_config h1 h2 hnc, appendKey_config h1 h2 hnc,
      appendLevel_config h1 h2 hnc, appendSource_config h1 h2 hnc,
      appendError_config h1 h2 hnc]

theorem appendAttr_config (h1 h2 : Handler)
    (hrep : h1.replaceAttr = h2.replaceAttr) (hnc : h1.noColor = h2.noColor) :
    ∀ (fuel : Nat) (b : String) (a : Attr) (gp : String) (gs : List String),
      appendAttr h1 fuel b a gp gs = appendAttr h2 fuel b a gp gs := by
  intro fuel
  induction fuel with
  | zero => intros; rfl
  | succ n ih =>
    intro b a gp gs
    unfold appendAttr
    rw [hrep]
    generalize (match h2.replaceAttr with
      | some rep => if a.val.isGroup then a else rep gs a
      | none => a) = a1
    obtain ⟨k1, v1⟩ := a1
    simp only [Attr.key, Attr.val]
    by_cases hdrop : k1 = "" ∧ v1.isNil
    · rw [if_pos hdrop, if_pos hdrop]
    · rw [if_neg hdrop, if_neg hdrop]
      cases v1 with
      | group gattrs =>
        split
        · rename_i a2 heq
          injection heq with heq2
          subst heq2
          split
          · exact walkList_congr _ _ (fun b2 a3 => ih b2 a3 gp gs) b gattrs
          · exact walkList_congr _ _
              (fun b2 a3 => ih b2 a3 (gp ++ k1 ++ ".") (gs ++ [k1])) b gattrs
        · rename_i v2 hcon
          exact absurd rfl (hcon gattrs)
      | _ => exact appendAttrLeaf_config h1 h2 hnc b k1 _ gp

/-- C6: `WithAttrs` is the identity on the empty attribute list, and
composes: deriving with `A` and then with `B` (no intervening `WithGroup`)
yields exactly the handler derived once with `A ++ B` — in particular the
same `attrsPrefix`, hence the same rendered attribute text on every
subsequent `Handle` call. -/
theorem withAttrs_empty_and_compose (h : Handler) (fuel : Nat) (A B : List Attr) :
    WithAttrs h fuel [] = some h ∧
    (WithAttrs h fuel A).bind (fun h2 => WithAttrs h2 fuel B) =
      WithAttrs h fuel (A ++ B) := by
  constructor
  · rfl
  · rcases A with _ | ⟨a0, A2⟩
    · rfl
    · rcases B with _ | ⟨b0, B2⟩
      · rw [List.append_nil]
        cases hWA : WithAttrs h fuel (a0 :: A2) with
        | none => rfl
        | some h2 => rfl
      · unfold WithAttrs appendAttrList
        rw [walkList_append (fun b a => appendAttr h fuel b a h.groupPrefix h.groups)
          "" (a0 :: A2) (b0 :: B2)]
        simp only [List.cons_append, List.isEmpty_cons, Bool.false_eq_true, if_false]
        cases hWA : walkList (fun b a => appendAttr h fuel b a h.groupPrefix h.groups)
            "" (a0 :: A2) with
        | none => rfl
        | some bufA =>
          simp only [Option.some_bind]
          have hcfg : ∀ (b2 : String) (a2 : Attr),
              appendAttr { h with attrsPrefix := h.attrsPrefix ++ bufA } fuel b2 a2
                h.groupPrefix h.groups =
              appendAttr h fuel b2 a2 h.groupPrefix h.groups :=
            fun b2 a2 =>
              appendAttr_config { h with attrsPrefix := h.attrsPrefix ++ bufA } h
                rfl rfl fuel b2 a2 h.groupPrefix h.groups
          rw [walkList_congr _ _ hcfg "" (b0 :: B2)]
          have hshiftA : walkList
              (fun b a => appendAttr h fuel b a h.groupPrefix h.groups) bufA
              (b0 :: B2) =
              (walkList (fun b a => appendAttr h fuel b a h.groupPrefix h.groups)
                "" (b0 :: B2)).map (bufA ++ ·) := by
            have := walkList_shift
              (fun b a => appendAttr h fuel b a h.groupPrefix h.groups)
              (fun x2 b2 a2 => appendAttr_shift h fuel x2 b2 a2 h.groupPrefix h.groups)
              bufA "" (b0 :: B2)
            simpa using this
          rw [hshiftA]
          cases walkList (fun b a => appendAttr h fuel b a h.groupPrefix h.groups)
              "" (b0 :: B2) with
          | none => rfl
          | some bufB => simp [String.append_assoc]

/-- C1 (amended): `Handle` never propagates the destination write's failure.
Whenever it returns a result at all, the returned error component is `none`:
the line goes through `log.Logger.Println`, which discards the write error,
and `Handle` ends in `return nil`. -/
theorem handle_returns_nil (h : Handler) (fuel : Nat) (r : Record)
    (write : String → Except String Unit) (p : String × Option String)
    (hp : Handle h fuel r write = some p) : p.2 = none := by
  unfold Handle at hp
  cases hr : renderRecord h fuel r with
  | none => rw [hr] at hp; cases hp
  | some buf =>
    rw [hr] at hp
    cases Option.some.inj hp
    rfl

/-- C1 counterexample: against a destination whose write fails with
"disk full", `Handle` still returns no error (`none`), not the write's
failure — the error is swallowed, not propagated. -/
theorem handle_swallow_cex :
    Handle testHandler 1 testRecord (fun _ => Except.error "disk full") =
      some (" INFO hello\n", none) := rfl

/-- Witness for `handle_returns_nil` at a concrete handler, record and
writer. -/
theorem handle_returns_nil_witness :
    Handle testHandler 1 testRecord (fun _ => Except.ok ()) =
      some (" INFO hello\n", none) ∧
    (" INFO hello\n", (none : Option String)).2 = none :=
  ⟨rfl, handle_returns_nil testHandler 1 testRecord (fun _ => Except.ok ())
    (" INFO hello\n", none) rfl⟩

/-- C8: with color disabled the four known levels render as exactly the
5-character tokens `DEBUG`, ` INFO`, ` WARN`, `ERROR`, and any other level
renders as its raw `slog.Level.String()` name. -/
theorem appendLevel_five_char (h : Handler) (hnc : h.noColor = true) (l : Int) :
    (appendLevel h "" (-4) = "DEBUG" ∧ (appendLevel h "" (-4)).length = 5) ∧
    (appendLevel h "" 0 = " INFO" ∧ (appendLevel h "" 0).length = 5) ∧
    (appendLevel h "" 4 = " WARN" ∧ (appendLevel h "" 4).length = 5) ∧
    (appendLevel h "" 8 = "ERROR" ∧ (appendLevel h "" 8).length = 5) ∧
    (l ≠ -4 → l ≠ 0 → l ≠ 4 → l ≠ 8 → appendLevel h "" l = levelString l) := by
  have hd : appendLevel h "" (-4) = "DEBUG" := by
    simp [appendLevel, appendANSI, hnc]
  have hi : appendLevel h "" 0 = " INFO" := by
    simp [appendLevel]
  have hw : appendLevel h "" 4 = " WARN" := by
    simp [appendLevel, appendANSI, hnc]
  have he : appendLevel h "" 8 = "ERROR" := by
    simp [appendLevel, appendANSI, hnc]
  refine ⟨⟨hd, by rw [hd]; rfl⟩, ⟨hi, by rw [hi]; rfl⟩, ⟨hw, by rw [hw]; rfl⟩,
    ⟨he, by rw [he]; rfl⟩, fun h1 h2 h3 h4 => ?_⟩
  simp [appendLevel, h1, h2, h3, h4]

/-- Witness for `appendLevel_five_char` at the concrete no-color handler and
the non-standard level 2 (whose raw name is `INFO+2`). -/
theorem appendLevel_five_char_witness :
    testHandler.noColor = true ∧ appendLevel testHandler "" 2 = levelString 2 :=
  ⟨rfl, (appendLevel_five_char testHandler rfl 2).2.2.2.2
    (by decide) (by decide) (by decide) (by decide)⟩

/-- C2 (amended): a `WithGroup` derivation leaves the parent's observable
accreted state untouched — `attrsPrefix` / `groupPrefix` are immutable Go
strings copied by value, and the slice append never touches the first `len`
cells the parent can see.  (The independent-copies half of the claim fails:
`clone` aliases the `groups` backing array, see the counterexample.) -/
theorem withGroupS_parent_preserved (σ : GoStore) (h : HandlerS) (name : String)
    (hwf : h.groups.len ≤ σ.capOf h.groups) :
    (WithGroupS σ h name).1.dataOf h.groups = σ.dataOf h.groups := by
  unfold WithGroupS
  split
  · rfl
  · unfold cloneS goAppend
    dsimp only
    split
    · -- spare capacity: `append` writes in place at index `len`,
      -- beyond everything the parent's header exposes
      rename_i hlt
      unfold GoStore.capOf at hlt
      have harr : h.groups.arr < σ.arrays.length := by
        by_contra hge
        push_neg at hge
        rw [List.getD_eq_getElem?_getD, List.getElem?_eq_none (by simpa using hge)] at hlt
        simp at hlt
      unfold GoStore.dataOf
      dsimp only
      rw [List.getD_eq_getElem?_getD, List.getElem?_set_self harr,
        List.getD_eq_getElem?_getD]
      simp only [Option.getD_some]
      rw [List.set_take]
      apply List.set_eq_of_length_le
      simp
    · -- growth: a fresh backing array is allocated, the old one is unchanged
      rename_i hge
      push_neg at hge
      unfold GoStore.dataOf GoStore.capOf at *
      dsimp only
      by_cases harr : h.groups.arr < σ.arrays.length
      · rw [List.getD_eq_getElem?_getD, List.getElem?_append_left harr,
          ← List.getD_eq_getElem?_getD]
      · push_neg at harr
        have hc0 : (σ.arrays.getD h.groups.arr []).length = 0 := by
          rw [List.getD_eq_getElem?_getD, List.getElem?_eq_none (by simpa using harr)]
          rfl
        have hlen0 : h.groups.len = 0 := by omega
        rw [hlen0]
        simp

/-- C2 counterexample: with a parent whose `groups` slice has spare capacity
(`["g1","g2","g3"]` in a capacity-4 array), the first sibling `WithGroup "x"`
appends in place, and the second sibling `WithGroup "y"` from the SAME parent
overwrites that cell: the first sibling's groups change from
`[..,"x"]` to `[..,"y"]`, so derived handlers do not own independent copies. -/
theorem withGroupS_sibling_cex :
    sibX.1.dataOf sibX.2.groups = ["g1", "g2", "g3", "x"] ∧
    sibY.1.dataOf sibX.2.groups = ["g1", "g2", "g3", "y"] := ⟨rfl, rfl⟩

/-- Witness for `withGroupS_parent_preserved` at the concrete capacity-4
parent. -/
theorem withGroupS_parent_preserved_witness :
    chain3.2.groups.len ≤ chain3.1.capOf chain3.2.groups ∧
    (WithGroupS chain3.1 chain3.2 "x").1.dataOf chain3.2.groups =
      chain3.1.dataOf chain3.2.groups :=
  ⟨by decide, withGroupS_parent_preserved chain3.1 chain3.2 "x" (by decide)⟩

/-- C3 (amended): for a Go int `0 ≤ i < 2^63` and a width `0 ≤ width ≤ 20`,
`WritePosIntWidth` appends exactly the decimal digits of `i` left-padded
with `'0'` to `max width (number of digits of i)` characters (width 0 adds
no padding), and for `i < 0` it panics without appending.  (For
`width > 20` the call panics instead of padding — the amendment the
counterexample forces; see C10.) -/
theorem writePosIntWidth_c3 (b : String) (i width : Int) :
    (0 ≤ i → i < 2 ^ 63 → 0 ≤ width → width ≤ 20 →
      WritePosIntWidth b i width = some (b ++ String.mk (padDigits i.toNat width))) ∧
    (i < 0 → WritePosIntWidth b i width = none) := by
  refine ⟨fun h0 h63 hw0 hw20 => wpiw_padded b i width h0 h63 hw0 hw20, fun hneg => ?_⟩
  unfold WritePosIntWidth
  rw [if_pos hneg]

/-- C3 counterexample: at `i = 0`, `width = 21` the claim as stated demands
the 21-character zero-padded string, but the call panics (`none`). -/
theorem writePosIntWidth_c3_cex :
    WritePosIntWidth "" 0 21 = none ∧
    (some ("" ++ String.mk (padDigits 0 21)) : Option String) ≠ none := by
  exact ⟨wpiw_wide_panics "" 0 21 (by norm_num) (by norm_num), by simp⟩

/-- Witness for `writePosIntWidth_c3` at `i = 5`, `width = 3` (yielding
"005") and at `i = -1`. -/
theorem writePosIntWidth_c3_witness :
    WritePosIntWidth "" 5 3 = some ("" ++ String.mk (padDigits 5 3)) ∧
    WritePosIntWidth "" (-1) 0 = none :=
  ⟨(writePosIntWidth_c3 "" 5 3).1 (by norm_num) (by norm_num) (by norm_num)
      (by norm_num),
   (writePosIntWidth_c3 "" (-1) 0).2 (by norm_num)⟩

/-- C10: for a Go int `i ≥ 0` and `0 ≤ width ≤ 20` the scratch-array index
stays in bounds (the call completes without panic), while for `width > 20`
the reverse fill drives the index out of range and the call panics instead
of appending the padded number. -/
theorem writePosIntWidth_c10 (b : String) (i width : Int) :
    (0 ≤ i → i < 2 ^ 63 → 0 ≤ width → width ≤ 20 →
      ∃ s, WritePosIntWidth b i width = some s) ∧
    (0 ≤ i → 20 < width → WritePosIntWidth b i width = none) :=
  ⟨fun h0 h63 hw0 hw20 => ⟨_, wpiw_padded b i width h0 h63 hw0 hw20⟩,
   fun h0 hw => wpiw_wide_panics b i width h0 hw⟩

/-- Witness for `writePosIntWidth_c10` at `i = 7` with widths 20 and 21. -/
theorem writePosIntWidth_c10_witness :
    (∃ s, WritePosIntWidth "" 7 20 = some s) ∧ WritePosIntWidth "" 7 21 = none :=
  ⟨(writePosIntWidth_c10 "" 7 20).1 (by norm_num) (by norm_num) (by norm_num)
      (by norm_num),
   (writePosIntWidth_c10 "" 7 21).2 (by norm_num) (by norm_num)⟩

/-- C9: an attribute with empty key and nil value renders nothing at all —
the buffer comes back unchanged, an attribute list containing the pair
renders exactly as the list without it (no double space, no dangling `=`),
and a rewrite function returning the zero attribute likewise drops the
attribute. -/
theorem appendAttr_noop_dropped (h : Handler) (hrep : h.replaceAttr = none)
    (fuel : Nat) (buf : String) (gp : String) (gs : List String)
    (xs ys : List Attr) (h2 : Handler) (rep : List String → Attr → Attr)
    (hrep2 : h2.replaceAttr = some rep) (a : Attr) (hag : a.val.isGroup = false)
    (hza : rep gs a = Attr.mk "" Value.nilv) :
    appendAttr h (fuel + 1) buf (Attr.mk "" Value.nilv) gp gs = some buf ∧
    appendAttrList h (fuel + 1) buf (xs ++ Attr.mk "" Value.nilv :: ys) gp gs =
      appendAttrList h (fuel + 1) buf (xs ++ ys) gp gs ∧
    appendAttr h2 (fuel + 1) buf a gp gs = some buf := by
  have hnoop : ∀ b : String, appendAttr h (fuel + 1) b (Attr.mk "" Value.nilv) gp gs =
      some b := by
    intro b
    unfold appendAttr
    simp [hrep, Attr.key, Attr.val, Value.isNil]
  refine ⟨hnoop buf, ?_, ?_⟩
  · unfold appendAttrList
    rw [walkList_append, walkList_append]
    cases walkList (fun b a2 => appendAttr h (fuel + 1) b a2 gp gs) buf xs with
    | none => rfl
    | some b =>
      simp only [walkList]
      rw [hnoop b]
  · unfold appendAttr
    simp only [hrep2]
    have hng : ¬(a.val.isGroup = true) := by simp [hag]
    rw [if_neg hng, hza]
    simp [Attr.key, Attr.val, Value.isNil]

/-- Witness for `appendAttr_noop_dropped`: the list
`[a=1, (empty key, nil), b=2]` renders exactly as `[a=1, b=2]`, and the
always-zero rewrite function drops `x=7`. -/
theorem appendAttr_noop_dropped_witness :
    appendAttr testHandler 1 "" (Attr.mk "" Value.nilv) "" [] = some "" ∧
    appendAttrList testHandler 1 ""
        ([Attr.mk "a" (Value.int 1)] ++ Attr.mk "" Value.nilv ::
          [Attr.mk "b" (Value.int 2)]) "" [] =
      appendAttrList testHandler 1 ""
        ([Attr.mk "a" (Value.int 1)] ++ [Attr.mk "b" (Value.int 2)]) "" [] ∧
    appendAttr zeroRepHandler 1 "" (Attr.mk "x" (Value.int 7)) "" [] = some "" :=
  appendAttr_noop_dropped testHandler rfl 0 "" "" []
    [Attr.mk "a" (Value.int 1)] [Attr.mk "b" (Value.int 2)]
    zeroRepHandler (fun _ _ => Attr.mk "" Value.nilv) rfl
    (Attr.mk "x" (Value.int 7)) rfl rfl

/-- On ASCII bytes, the walker's per-rune quoting trigger agrees with the
claim-side per-byte test. -/
theorem needsQuotesChar_ofNat_eq_byteBad :
    ∀ b : Nat, b < 128 → needsQuotesChar (Char.ofNat b) = byteBad b := by decide

/-- On ASCII bytes, strconv's per-rune escape agrees with the claim-side
per-byte escape. -/
theorem goQuoteChar_ofNat_eq_escByte :
    ∀ b : Nat, b < 128 → goQuoteChar (Char.ofNat b) = escByte b := by decide

/-- C4 (amended): an ASCII byte-sequence value is AUTO-quoted, not always
quoted: when it is empty or contains a whitespace / `"` / `=` /
non-printable byte it renders as the escaped quoted string (printable bytes
verbatim, named control escapes, `\xNN` for the rest); otherwise the raw
bytes are appended without quotes. -/
theorem appendValue_bytes_auto (h : Handler) (bs : List Nat)
    (hascii : ∀ b ∈ bs, b < 128) :
    appendValue h "" (Value.bytes bs) =
      some (if bs = [] ∨ ∃ b ∈ bs, byteBad b = true then
              "\"" ++ String.join (bs.map escByte) ++ "\""
            else byteString bs) := by
  have hnq : needsQuotes (byteString bs) = true ↔
      (bs = [] ∨ ∃ b ∈ bs, byteBad b = true) := by
    unfold needsQuotes byteString
    simp only [Bool.or_eq_true, beq_iff_eq, List.any_eq_true]
    constructor
    · rintro (h0 | ⟨c, hc, hqc⟩)
      · left
        have hl : (bs.map Char.ofNat).length = 0 := h0
        simpa using hl
      · right
        obtain ⟨b, hb, rfl⟩ := List.mem_map.mp hc
        exact ⟨b, hb, by
          rw [← needsQuotesChar_ofNat_eq_byteBad b (hascii b hb)]; exact hqc⟩
    · rintro (rfl | ⟨b, hb, hbb⟩)
      · left; rfl
      · right
        exact ⟨Char.ofNat b, List.mem_map_of_mem _ hb, by
          rw [needsQuotesChar_ofNat_eq_byteBad b (hascii b hb)]; exact hbb⟩
  have hmap : (byteString bs).data.map goQuoteChar = bs.map escByte := by
    show (bs.map Char.ofNat).map goQuoteChar = bs.map escByte
    rw [List.map_map]
    apply List.map_congr_left
    intro b hb
    show goQuoteChar (Char.ofNat b) = escByte b
    exact goQuoteChar_ofNat_eq_escByte b (hascii b hb)
  have hquote : goQuote (byteString bs) = "\"" ++ String.join (bs.map escByte) ++ "\"" := by
    unfold goQuote
    rw [hmap]
  rw [show appendValue h "" (Value.bytes bs) =
    some ("" ++ appendAutoQuote (byteString bs)) from rfl]
  rw [String.empty_append]
  unfold appendAutoQuote
  by_cases hq : needsQuotes (byteString bs) = true
  · rw [if_pos hq, hquote, if_pos (hnq.mp hq)]
  · rw [if_neg hq, if_neg (fun hcond => hq (hnq.mpr hcond))]

/-- C4 counterexample: the byte sequence "abc" (printable ASCII) renders as
the three raw bytes `abc` with no surrounding quotes, not as the
always-quoted form the claim demands. -/
theorem appendValue_bytes_cex :
    appendValue testHandler "" (Value.bytes [97, 98, 99]) = some "abc" ∧
    ("abc").data.head? ≠ some '"' := ⟨rfl, by decide⟩

/-- Witness for `appendValue_bytes_auto` on the bytes of "a b" (the space
forces the quoted branch). -/
theorem appendValue_bytes_auto_witness :
    appendValue testHandler "" (Value.bytes [97, 32, 98]) =
      some (if [97, 32, 98] = ([] : List Nat) ∨ ∃ b ∈ [97, 32, 98], byteBad b = true
            then "\"" ++ String.join ([97, 32, 98].map escByte) ++ "\""
            else byteString [97, 32, 98]) :=
  appendValue_bytes_auto testHandler [97, 32, 98] (by decide)

/-- A string is empty exactly when its character list is. -/
theorem string_eq_empty_iff (s : String) : s = "" ↔ s.data = [] :=
  ⟨fun h => by rw [h], fun h => String.ext h⟩

/-- A string's length is its character count. -/
theorem string_length_data (s : String) : s.length = s.data.length := by
  cases s with
  | mk l => rfl

/-- On ASCII code points the walker's per-rune quoting trigger agrees with
the claim's bad-key test (the NEL/NBSP cases concern runes above 127). -/
theorem needsQuotesChar_ofNat_eq_badKeyChar :
    ∀ n : Nat, n < 128 → needsQuotesChar (Char.ofNat n) = badKeyChar (Char.ofNat n) := by
  decide

/-- The same agreement for any ASCII rune. -/
theorem needsQuotesChar_eq_badKeyChar (c : Char) (hc : c.toNat < 128) :
    needsQuotesChar c = badKeyChar c := by
  rw [← Char.ofNat_toNat c]
  exact needsQuotesChar_ofNat_eq_badKeyChar c.toNat hc

/-- `needsQuotes` on a non-empty ASCII string holds exactly when some rune
is whitespace, `"`, `=`, or non-printable. -/
theorem needsQuotes_iff_of_ascii (s : String) (hne : s ≠ "")
    (hascii : ∀ c ∈ s.data, c.toNat < 128) :
    needsQuotes s = true ↔ ∃ c ∈ s.data, badKeyChar c = true := by
  unfold needsQuotes
  simp only [Bool.or_eq_true, beq_iff_eq, List.any_eq_true]
  constructor
  · rintro (h0 | ⟨c, hc, hqc⟩)
    · rw [string_length_data] at h0
      exact absurd ((string_eq_empty_iff s).mpr (List.length_eq_zero.mp h0)) hne
    · exact ⟨c, hc, by rw [← needsQuotesChar_eq_badKeyChar c (hascii c hc)]; exact hqc⟩
  · rintro ⟨c, hc, hbc⟩
    exact Or.inr ⟨c, hc, by rw [needsQuotesChar_eq_badKeyChar c (hascii c hc)]; exact hbc⟩

/-- C7: with color off, an empty key renders as the two-character literal
`""` (followed by `=`); a non-empty key, prefixed by its group path, is
emitted unquoted exactly when the prefixed key contains no whitespace, `"`,
`=`, or non-printable character, and otherwise is quoted with the same
escaping as string values. -/
theorem appendKey_autoquote (h : Handler) (hnc : h.noColor = true)
    (key groups : String) (hascii : ∀ c ∈ (groups ++ key).data, c.toNat < 128) :
    appendKey h "" key groups =
      (if key = "" then "\"\""
       else if ∃ c ∈ (groups ++ key).data, badKeyChar c = true then
         goQuote (groups ++ key)
       else groups ++ key) ++ "=" := by
  have hansi : ∀ b c : String, appendANSI h b c = b := by
    intro b c
    unfold appendANSI
    rw [hnc]
    simp
  unfold appendKey
  rw [hansi, hansi]
  by_cases hk : key = ""
  · rw [if_pos hk, if_pos (by rw [hk]; rfl)]
    simp
  · have hkl : ¬ key.length = 0 := by
      intro h0
      rw [string_length_data] at h0
      exact hk ((string_eq_empty_iff key).mpr (List.length_eq_zero.mp h0))
    rw [if_neg hkl, if_neg hk]
    unfold appendAutoQuote
    have hne : groups ++ key ≠ "" := by
      intro heq
      apply hk
      rw [string_eq_empty_iff] at heq ⊢
      rw [String.data_append] at heq
      exact (List.append_eq_nil.mp heq).2
    by_cases hq : needsQuotes (groups ++ key) = true
    · rw [if_pos hq, if_pos ((needsQuotes_iff_of_ascii _ hne hascii).mp hq)]
      simp
    · rw [if_neg hq,
        if_neg (fun hc => hq ((needsQuotes_iff_of_ascii _ hne hascii).mpr hc))]
      simp

/-- Witness for `appendKey_autoquote` at the key "a b" under group prefix
"g." (the space forces quoting). -/
theorem appendKey_autoquote_witness :
    testHandler.noColor = true ∧
    appendKey testHandler "" "a b" "g." =
      (if ("a b" : String) = "" then "\"\""
       else if ∃ c ∈ (("g." : String) ++ "a b").data, badKeyChar c = true then
         goQuote ("g." ++ "a b")
       else "g." ++ "a b") ++ "=" :=
  ⟨rfl, appendKey_autoquote testHandler rfl "a b" "g." (by decide)⟩

/-- Appending a non-empty string never yields the empty string. -/
theorem append_ne_empty_of_right (a b : String) (hb : b ≠ "") : a ++ b ≠ "" := by
  intro h
  rw [string_eq_empty_iff, String.data_append, List.append_eq_nil] at h
  exact hb ((string_eq_empty_iff b).mpr h.2)

/-- A lower-cased string containing a dot is none of the four built-in keys
(which are dot-free). -/
theorem toLower_dotted_not_builtin (s : String) (hdot : '.' ∈ s.data) :
    goToLower s ∉ builtinKeys := by
  intro hmem
  have hdot2 : '.' ∈ (goToLower s).data := by
    show '.' ∈ s.data.map lowerChar
    exact List.mem_map.mpr ⟨'.', hdot, by decide⟩
  simp only [builtinKeys, List.mem_cons] at hmem
  rcases hmem with h | h | h | h | h
  · rw [h] at hdot2; exact absurd hdot2 (by decide)
  · rw [h] at hdot2; exact absurd hdot2 (by decide)
  · rw [h] at hdot2; exact absurd hdot2 (by decide)
  · rw [h] at hdot2; exact absurd hdot2 (by decide)
  · exact absurd h (List.not_mem_nil _)

/-- The dot-joined prefix of a non-empty chain of group keys contains a
dot, whatever follows it. -/
theorem dot_mem_joinDots (p : String) (ps : List String) (k : String) :
    '.' ∈ (joinDots (p :: ps) ++ k).data := by
  show '.' ∈ (((p ++ ".") ++ joinDots ps) ++ k).data
  rw [String.data_append, String.data_append, String.data_append]
  exact List.mem_append.mpr (Or.inl (List.mem_append.mpr (Or.inl
    (List.mem_append.mpr (Or.inr (by decide))))))

/-- One step of group flattening: a non-empty group key wraps its single
child with `key + "."` on the prefix and `key` on the open-group list. -/
theorem appendAttr_group_step (h : Handler) (hrep : h.replaceAttr = none)
    (fuel : Nat) (buf : String) (p : String) (hp : p ≠ "") (a : Attr)
    (gp : String) (gs : List String) :
    appendAttr h (fuel + 1) buf (Attr.mk p (Value.group [a])) gp gs =
      appendAttr h fuel buf a (gp ++ p ++ ".") (gs ++ [p]) := by
  conv_lhs => unfold appendAttr
  simp only [hrep, Attr.key, Attr.val, Value.isNil]
  rw [if_neg (by simp [hp])]
  rw [if_neg hp]
  unfold walkList
  cases hres : appendAttr h fuel buf a (gp ++ p ++ ".") (gs ++ [p]) with
  | none => rfl
  | some b => rfl

/-- A group-path prefix can be pre-joined into the key of a leaf render:
`appendKey` quotes the concatenated string either way. -/
theorem appendKey_prefix_merge (h : Handler) (buf k pre gp : String) (hk : k ≠ "") :
    appendKey h buf k (gp ++ pre) = appendKey h buf (pre ++ k) gp := by
  have hlk : ¬ k.length = 0 := by
    intro h0
    rw [string_length_data] at h0
    exact hk ((string_eq_empty_iff k).mpr (List.length_eq_zero.mp h0))
  have hlk2 : ¬ (pre ++ k).length = 0 := by
    intro h0
    rw [string_length_data] at h0
    exact append_ne_empty_of_right pre k hk
      ((string_eq_empty_iff (pre ++ k)).mpr (List.length_eq_zero.mp h0))
  unfold appendKey
  rw [if_neg hlk, if_neg hlk2,
    show gp ++ pre ++ k = gp ++ (pre ++ k) from String.append_assoc gp pre k]

/-- A group-path prefix can be pre-joined into the key of any non-built-in
leaf attribute. -/
theorem appendAttrLeaf_prefix_merge (h : Handler) (buf k pre gp : String)
    (v : Value) (hk : k ≠ "")
    (hb1 : goToLower k ∉ builtinKeys)
    (hb2 : goToLower (pre ++ k) ∉ builtinKeys) :
    appendAttrLeaf h buf k v (gp ++ pre) = appendAttrLeaf h buf (pre ++ k) v gp := by
  simp only [builtinKeys, List.mem_cons, not_or] at hb1 hb2
  obtain ⟨ht, hl, hs, hm, -⟩ := hb1
  obtain ⟨ht2, hl2, hs2, hm2, -⟩ := hb2
  unfold appendAttrLeaf
  rw [if_neg ht, if_neg hl, if_neg hs, if_neg hm,
    if_neg ht2, if_neg hl2, if_neg hs2, if_neg hm2]
  cases v with
  | errv m => simp [appendError, String.append_assoc]
  | _ => rw [appendKey_prefix_merge h buf k pre gp hk]

/-- The flattening induction: a chain of non-empty singleton groups around a
non-group, non-built-in leaf renders exactly as the leaf with the dot-joined
key. -/
theorem appendAttr_flatten_aux (h : Handler) (hrep : h.replaceAttr = none)
    (k : String) (v : Value) (hv : v.isGroup = false) (hk : k ≠ "")
    (hb : goToLower k ∉ builtinKeys) :
    ∀ (ps : List String), (∀ p ∈ ps, p ≠ "") →
      ∀ (fuel : Nat) (buf gp : String) (gs : List String),
      appendAttr h (fuel + ps.length + 1) buf (nestGroups ps (Attr.mk k v)) gp gs =
        appendAttr h (fuel + 1) buf (Attr.mk (joinDots ps ++ k) v) gp gs := by
  intro ps
  induction ps with
  | nil =>
    intro _ fuel buf gp gs
    show appendAttr h (fuel + 0 + 1) buf (Attr.mk k v) gp gs = _
    rw [show joinDots [] ++ k = k by
      show "" ++ k = k
      exact String.empty_append k]
  | cons p ps ih =>
    intro hps fuel buf gp gs
    have hp : p ≠ "" := hps p (by simp)
    have hstep := appendAttr_group_step h hrep (fuel + ps.length + 1) buf p hp
      (nestGroups ps (Attr.mk k v)) gp gs
    have harith : fuel + (p :: ps).length + 1 = fuel + ps.length + 1 + 1 := by
      simp only [List.length_cons]
      omega
    rw [show nestGroups (p :: ps) (Attr.mk k v) =
      Attr.mk p (Value.group [nestGroups ps (Attr.mk k v)]) from rfl]
    rw [harith, hstep]
    rw [ih (fun q hq => hps q (by simp [hq])) fuel buf (gp ++ p ++ ".") (gs ++ [p])]
    -- merge the leading "p." into the flat key
    have hb2 : goToLower (joinDots ps ++ k) ∉ builtinKeys := by
      rcases ps with _ | ⟨q, qs⟩
      · rw [show joinDots [] ++ k = k by
          show "" ++ k = k
          exact String.empty_append k]
        exact hb
      · exact toLower_dotted_not_builtin _ (dot_mem_joinDots q qs k)
    have hb3 : goToLower ((p ++ ".") ++ (joinDots ps ++ k)) ∉ builtinKeys := by
      apply toLower_dotted_not_builtin
      rw [String.data_append]
      exact List.mem_append.mpr (Or.inl (by
        rw [String.data_append]
        exact List.mem_append.mpr (Or.inr (by decide))))
    have hkj : joinDots ps ++ k ≠ "" := append_ne_empty_of_right _ _ hk
    -- both sides are the same leaf; merge the prefix
    unfold appendAttr
    simp only [hrep]
    rw [if_neg (fun hcon => hkj hcon.1),
      if_neg (fun hcon =>
        append_ne_empty_of_right (joinDots (p :: ps)) k hk hcon.1)]
    cases v with
    | group gattrs => simp [Value.isGroup] at hv
    | _ =>
      rw [show gp ++ p ++ "." = gp ++ (p ++ ".") from String.append_assoc gp p "."]
      simp only [Attr.key, Attr.val]
      rw [appendAttrLeaf_prefix_merge h buf (joinDots ps ++ k) (p ++ ".") gp _
        hkj hb2 hb3]
      rw [show joinDots (p :: ps) = (p ++ ".") ++ joinDots ps from rfl,
        String.append_assoc (p ++ ".") (joinDots ps) k]

/-- C5: the walker flattens groups deterministically with dot-joined key
prefixes: a chain of non-empty group keys around a non-group, non-built-in
leaf renders identically to the single attribute with the pre-joined key
(at any nesting depth), and an empty-key group is inline — its children are
walked with no added prefix segment. -/
theorem appendAttr_group_flatten (h : Handler) (hrep : h.replaceAttr = none)
    (ps : List String) (hps : ∀ p ∈ ps, p ≠ "") (k : String) (hk : k ≠ "")
    (v : Value) (hv : v.isGroup = false) (hb : goToLower k ∉ builtinKeys)
    (fuel : Nat) (buf gp : String) (gs : List String) (gattrs : List Attr) :
    appendAttr h (fuel + ps.length + 1) buf (nestGroups ps (Attr.mk k v)) gp gs =
      appendAttr h (fuel + 1) buf (Attr.mk (joinDots ps ++ k) v) gp gs ∧
    appendAttr h (fuel + 1) buf (Attr.mk "" (Value.group gattrs)) gp gs =
      appendAttrList h fuel buf gattrs gp gs := by
  constructor
  · exact appendAttr_flatten_aux h hrep k v hv hk hb ps hps fuel buf gp gs
  · conv_lhs => unfold appendAttr
    simp only [hrep]
    rw [if_neg (by simp [Attr.key, Attr.val, Value.isNil])]
    show walkList (fun b a => appendAttr h fuel b a gp gs) buf gattrs = _
    rfl

/-- Witness for `appendAttr_group_flatten`:
`Group("g", Group("h2", c=3))` renders exactly as the flat key `g.h2.c`,
and the empty-key group around `d=4` inlines into the parent walk. -/
theorem appendAttr_group_flatten_witness :
    (appendAttr testHandler (1 + (["g", "h2"] : List String).length + 1) ""
        (nestGroups ["g", "h2"] (Attr.mk "c" (Value.int 3))) "" [] =
      appendAttr testHandler (1 + 1) ""
        (Attr.mk (joinDots ["g", "h2"] ++ "c") (Value.int 3)) "" []) ∧
    (appendAttr testHandler (1 + 1) ""
        (Attr.mk "" (Value.group [Attr.mk "d" (Value.int 4)])) "" [] =
      appendAttrList testHandler 1 "" [Attr.mk "d" (Value.int 4)] "" []) :=
  appendAttr_group_flatten testHandler rfl ["g", "h2"] (by decide) "c"
    (by decide) (Value.int 3) rfl (by decide) 1 "" "" []
    [Attr.mk "d" (Value.int 4)]

end Cli


